import Mathlib

/-!
Verification development for the PetroVisor client library's typed data
synchronization layer.  The library code itself (package `petrovisor`) is
not present in the repository snapshot; every component below is modelled
from the specification (`spec.md`), faithful to its words, and the claims
are settled against these models.
-/

/-- A scalar cell value: numeric or string, matching the spec's
`value: numeric|string` in IndexedRecord. -/
inductive PValue where
  | num (n : Int)
  | str (s : String)
deriving DecidableEq, Repr

/-- Modelled from the spec: RecordKey = (entity, signal, unit, index);
for Static/String signals the index is absent. -/
structure RecordKey where
  entity : String
  signal : String
  unit : String
  index : Option Int
deriving DecidableEq, Repr

/-- Modelled from the spec: IndexedRecord with its merge-identity key and
its payload value. -/
structure IndexedRecord where
  key : RecordKey
  value : PValue
deriving DecidableEq, Repr

/-- Modelled from the spec: the result of MergeEngine.plan, splitting the
incoming records into those transmitted and those withheld. -/
structure MergePlan where
  toWrite : List IndexedRecord
  toSkip : List IndexedRecord
deriving DecidableEq, Repr

namespace MergeEngine

/-- Modelled from the spec: `plan(existingKeys, incomingRecords, skipExisting)`.
With `skipExisting = false` every incoming record is written; with
`skipExisting = true` a record whose key is in `existingKeys` goes to
`toSkip` and the rest go to `toWrite`. -/
def plan (existingKeys : List RecordKey) (incoming : List IndexedRecord)
    (skipExisting : Bool) : MergePlan :=
  if skipExisting then
    { toWrite := incoming.filter (fun r => decide (r.key ∉ existingKeys))
      toSkip := incoming.filter (fun r => decide (r.key ∈ existingKeys)) }
  else
    { toWrite := incoming, toSkip := [] }

end MergeEngine

/-- The remotely stored state, as a map from record keys to stored values. -/
def Store := RecordKey → Option PValue

/-- Writing one record fully replaces any existing value at the same key
(last-write-wins, no merge of sub-fields). -/
def storePut (s : Store) (r : IndexedRecord) : Store :=
  fun k => if k = r.key then some r.value else s k

/-- Applying a record list in presentation order (within one write call,
records sharing a key are applied in order; the last one wins). -/
def storeApply (s : Store) (rs : List IndexedRecord) : Store :=
  rs.foldl storePut s

/-- Modelled from the spec: a full write call.  The probe producing
`existingKeys` and the merge decision are two composable steps; only the
planned `toWrite` records are transmitted and applied to the store. -/
def writeData (s : Store) (existingKeys : List RecordKey)
    (incoming : List IndexedRecord) (skipExisting : Bool) : Store :=
  storeApply s (MergeEngine.plan existingKeys incoming skipExisting).toWrite

/-- The last record of `rs` whose key is `k`, if any. -/
def lastAtKey (rs : List IndexedRecord) (k : RecordKey) : Option IndexedRecord :=
  (rs.filter (fun r => r.key = k)).getLast?

/-- The error taxonomy of the spec (the cases the data-path models use). -/
inductive ApiError where
  | InvalidRangeSpec
  | MissingUnit
  | InvalidIndexValue
  | SchemaMismatch
  | DecodeError
  | Timeout
  | RemoteFailure
deriving DecidableEq, Repr

/-- Modelled from the spec: the signal-kind taxonomy, a closed sum type. -/
inductive SignalKind where
  | Static
  | String
  | TimeDependent
  | DepthDependent
  | StringTimeDependent
deriving DecidableEq, Repr

/-- The fixed calendar increments for time-indexed kinds. -/
inductive TimeIncrement where
  | Second
  | Minute
  | Hourly
  | Daily
  | Monthly
  | Yearly
deriving DecidableEq, Repr

/-- The fixed increments for the depth-indexed kind. -/
inductive DepthIncrement where
  | Meter
  | Foot
deriving DecidableEq, Repr

/-- A canonical (already normalized) increment. -/
inductive Increment where
  | time (t : TimeIncrement)
  | depth (d : DepthIncrement)
deriving DecidableEq, Repr

/-- An increment as accepted at the call boundary: either the structured
enum or a string synonym. -/
inductive IncrementSpec where
  | enum (i : Increment)
  | str (s : String)
deriving DecidableEq, Repr

/-- Lower-casing used for the case-insensitive string synonyms. -/
def lowerString (s : String) : String := String.mk (s.data.map Char.toLower)

/-- Modelled from the spec: whether an increment belongs to the fixed
enumerated set of a signal kind (time kinds take calendar increments,
the depth kind takes depth increments, unindexed kinds take none). -/
def incrementValidFor (kind : SignalKind) (i : Increment) : Bool :=
  match kind, i with
  | .TimeDependent, .time _ => true
  | .StringTimeDependent, .time _ => true
  | .DepthDependent, .depth _ => true
  | _, _ => false

/-- Modelled from the spec: the recognized case-insensitive string
synonyms for increments, mapped to the canonical enum. -/
def parseIncrementName (s : String) : Option Increment :=
  let t := lowerString s
  if t = "second" then some (.time .Second)
  else if t = "minute" then some (.time .Minute)
  else if t = "hourly" then some (.time .Hourly)
  else if t = "daily" then some (.time .Daily)
  else if t = "monthly" then some (.time .Monthly)
  else if t = "yearly" then some (.time .Yearly)
  else if t = "meter" then some (.depth .Meter)
  else if t = "foot" then some (.depth .Foot)
  else none

/-- Normalization of a boundary increment: a string synonym is turned into
the canonical enum before use; anything unrecognized or outside the
kind's enumerated set fails with InvalidRangeSpec. -/
def normalizeIncrement (kind : SignalKind) (spec : IncrementSpec) :
    Except ApiError Increment :=
  match spec with
  | .enum i => if incrementValidFor kind i then .ok i else .error .InvalidRangeSpec
  | .str s =>
    match parseIncrementName s with
    | some i => if incrementValidFor kind i then .ok i else .error .InvalidRangeSpec
    | none => .error .InvalidRangeSpec

/-- The currently stored data extent of a signal (its actual min/max
index), as returned by the external range probe. -/
structure Extent where
  min : Int
  max : Int
deriving DecidableEq, Repr

/-- A concrete bounded query window; `stop` models the spec field `end`
(a reserved word).  An empty window is represented as `none` at the use
sites (`Option Window`). -/
structure Window where
  start : Int
  stop : Int
  increment : Increment
deriving DecidableEq, Repr

namespace RangeResolver

/-- Modelled from the spec: `resolve(kind, explicitStart?, explicitEnd?,
increment, currentExtent)`.  Explicit bounds are used verbatim (validated
start ≤ end when both are explicit); an omitted bound is substituted with
the corresponding bound of `currentExtent`; when the extent is empty (no
stored data) and a bound is missing, the window is empty (`none`), not an
error. -/
def resolve (kind : SignalKind) (start? stop? : Option Int)
    (inc : IncrementSpec) (extent : Option Extent) :
    Except ApiError (Option Window) :=
  match normalizeIncrement kind inc with
  | .error e => .error e
  | .ok i =>
    match start?, stop? with
    | some a, some b =>
      if a ≤ b then .ok (some ⟨a, b, i⟩) else .error .InvalidRangeSpec
    | some a, none =>
      match extent with
      | some ext => .ok (some ⟨a, ext.max, i⟩)
      | none => .ok none
    | none, some b =>
      match extent with
      | some ext => .ok (some ⟨ext.min, b, i⟩)
      | none => .ok none
    | none, none =>
      match extent with
      | some ext => .ok (some ⟨ext.min, ext.max, i⟩)
      | none => .ok none

end RangeResolver

/-- Modelled from the spec: SignalDescriptor = {name, kind, unit,
measurement}. -/
structure SignalDescriptor where
  name : String
  kind : SignalKind
  unit : String
  measurement : String
deriving DecidableEq, Repr

/-- One row of the wide tabular client view on the write side: an entity
identifier, an index value, and one value per signal column. -/
structure TableRow where
  entity : String
  index : Int
  cells : List PValue
deriving DecidableEq, Repr

/-- One row of the decoded wide view: outer-join semantics mean a cell
may be null (`none`) when an entity lacks a value at an index. -/
structure DecodedRow where
  entity : String
  index : Int
  cells : List (Option PValue)
deriving DecidableEq, Repr

/-- The decoded wide tabular view: headers plus rows. -/
structure Table where
  headers : List String
  rows : List DecodedRow
deriving DecidableEq, Repr

/-- Whether a (possibly empty) resolved window contains an index. -/
def windowContains (w : Option Window) (i : Int) : Bool :=
  match w with
  | none => false
  | some w => decide (w.start ≤ i) && decide (i ≤ w.stop)

/-- First-appearance deduplication, used to list the distinct (entity,
index) row keys found in a record set in order of first appearance. -/
def dedupFirst {α : Type} [DecidableEq α] : List α → List α
  | [] => []
  | a :: l => a :: dedupFirst (l.filter (fun b => decide (b ≠ a)))
termination_by l => l.length
decreasing_by
  simp only [List.length_cons]
  exact Nat.lt_succ_of_le (List.length_filter_le _ _)

namespace RecordCodec

/-- The column header annotation carrying the unit, e.g. a column
written as A with unit bbl reads back as A followed by the unit in
square brackets. -/
def withUnitSuffix (name unit : String) : String :=
  name ++ " [" ++ unit ++ "]"

/-- The wire record produced for one cell of one tabular row. -/
def mkRecord (e : String) (i : Int) (p : SignalDescriptor × PValue) :
    IndexedRecord :=
  { key := { entity := e, signal := p.1.name, unit := p.1.unit
             index := some i }
    value := p.2 }

/-- Modelled from the spec: the encode direction for an indexed kind —
each tabular row becomes one wire record per signal column, keyed by
(entity, signal, unit, index); the unit comes from the per-column
descriptor. -/
def encodeRow (descs : List SignalDescriptor) (row : TableRow) :
    List IndexedRecord :=
  (descs.zip row.cells).map (mkRecord row.entity row.index)

/-- Modelled from the spec: `encode(signalDescriptor, tabularRows)`,
the concatenation of the per-row record lists in presentation order. -/
def encode (descs : List SignalDescriptor) :
    List TableRow → List IndexedRecord
  | [] => []
  | r :: rs => encodeRow descs r ++ encode descs rs

/-- The (entity, index) row key a wire record belongs to. -/
def keyOf (r : IndexedRecord) : String × Int :=
  (r.key.entity, r.key.index.getD 0)

/-- Whether a wire record carries an index lying inside the window. -/
def recordInWindow (w : Option Window) (r : IndexedRecord) : Bool :=
  match r.key.index with
  | some i => windowContains w i
  | none => false

/-- The cell lookup of the decode direction: the value of the first
record matching (entity, signal, unit, index), a null cell if none. -/
def findValue (records : List IndexedRecord) (e n u : String) (i : Int) :
    Option PValue :=
  (records.find? (fun r => decide (r.key = ⟨e, n, u, some i⟩))).map
    (fun r => r.value)

/-- Modelled from the spec: `decode(signalDescriptor, records, window)`.
Keeps the records inside the window, produces one row per distinct
(entity, index) key in order of first appearance (outer-join: a missing
value yields a null cell), and annotates each column header with the
unit. -/
def decode (descs : List SignalDescriptor) (records : List IndexedRecord)
    (w : Option Window) : Table :=
  { headers := descs.map (fun d => withUnitSuffix d.name d.unit)
    rows := (dedupFirst ((records.filter (recordInWindow w)).map keyOf)).map
      (fun p =>
        { entity := p.1, index := p.2
          cells := descs.map (fun d =>
            findValue (records.filter (recordInWindow w))
              p.1 d.name d.unit p.2) }) }

end RecordCodec

/-- Modelled from the spec: the workflow execution statuses. -/
inductive WfStatus where
  | Waiting
  | Executing
  | Executed
  | Completed
  | Failed
  | Cancelled
deriving DecidableEq, Repr

/-- Modelled from the spec: Waiting and Executing are the only
non-terminal states; the other four are terminal. -/
def WfStatus.isTerminal : WfStatus → Bool
  | .Waiting => false
  | .Executing => false
  | _ => true

/-- Modelled from the spec: WorkflowExecution = {id, status}. -/
structure WorkflowExecution where
  id : String
  status : WfStatus
deriving DecidableEq, Repr

namespace WorkflowRunner

/-- Modelled from the spec: `start(workflowName)` yields an execution in
status Waiting. -/
def start (workflowName : String) : WorkflowExecution :=
  { id := workflowName, status := .Waiting }

/-- Modelled from the spec: the poll loop of `awaitCompletion`, re-polling
from poll number `i` on; `polls` is the status observed by each single
non-blocking poll, `fuel` the remaining poll budget before Timeout.  The
result carries the number of the final poll together with its terminal
status. -/
def awaitFrom (polls : Nat → WfStatus) (i : Nat) :
    Nat → Except ApiError (Nat × WfStatus)
  | 0 => .error .Timeout
  | fuel + 1 =>
    if (polls i).isTerminal then .ok (i, polls i)
    else awaitFrom polls (i + 1) fuel

/-- Modelled from the spec: `awaitCompletion` polls from the beginning
until a terminal status or until the budget elapses. -/
def awaitCompletion (polls : Nat → WfStatus) (fuel : Nat) :
    Except ApiError (Nat × WfStatus) :=
  awaitFrom polls 0 fuel

end WorkflowRunner

namespace BlobPathStore

/-- Modelled from the spec: upload stores a path; a name collision
overwrites silently (last-write-wins), so the listing stays duplicate
free. -/
def upload (store : List String) (path : String) : List String :=
  if path ∈ store then store else store ++ [path]

/-- Whether a stored path falls under a deletion target: it equals the
target or starts with the target followed by the folder separator. -/
def underPre (pre path : String) : Bool :=
  decide (path = pre) || (pre ++ "/").data.isPrefixOf path.data

/-- Modelled from the spec: deletion by path prefix (the notebooks call it
delete_folder) — removes every entry whose path equals the given folder
path or starts with it plus the separator; a folder matching nothing is a
no-op, not an error. -/
def deleteFolder (store : List String) (pre : String) : List String :=
  store.filter (fun q => ! underPre pre q)

/-- Modelled from the spec: the listing is the flat sequence of stored
path strings (get_file_names in the notebooks). -/
def getFileNames (store : List String) : List String := store

end BlobPathStore

/-- The RefTable column metadata wire shape {ColumnType, UnitName, Name}. -/
structure ColumnDef where
  ColumnType : String
  UnitName : String
  Name : String
deriving DecidableEq, Repr

/-- Modelled from the spec: the RefTable metadata wire shape
{Key, Values, Created, Modified, Description, Labels, Name}. -/
structure RefTableInfo where
  Key : ColumnDef
  Values : List ColumnDef
  Created : String
  Modified : String
  Description : String
  Labels : List String
  Name : String
deriving DecidableEq, Repr

/-- Whether a cell value is numeric. -/
def isNumCell : PValue → Bool
  | .num _ => true
  | .str _ => false

/-- Modelled from the spec: per-column type inference — all values
numeric gives Numeric, anything else gives String. -/
def inferColumnType (vals : List PValue) : String :=
  if vals.all isNumCell then "Numeric" else "String"

/-- The values found in column `j` across the supplied rows. -/
def columnValues (rows : List (List PValue)) (j : Nat) : List PValue :=
  rows.filterMap (fun row => row.get? j)

/-- Schema inference walking the headers in first-seen order, tracking the
running column position `j`. -/
def inferValueColumnsFrom (rows : List (List PValue)) (j : Nat) :
    List String → List ColumnDef
  | [] => []
  | h :: hs =>
    { ColumnType := inferColumnType (columnValues rows j)
      UnitName := " ", Name := h } :: inferValueColumnsFrom rows (j + 1) hs

/-- Modelled from the spec: `valueColumns` inferred from the supplied
tabular shape — column order is first-seen header order, type inferred
per column. -/
def inferValueColumns (headers : List String) (rows : List (List PValue)) :
    List ColumnDef :=
  inferValueColumnsFrom rows 0 headers

/-- The key-addressed table store, an association of table names to their
metadata. -/
def RefTableStore := List (String × RefTableInfo)

/-- The metadata of a stored table, if the table exists. -/
def lookupTable (ts : RefTableStore) (name : String) : Option RefTableInfo :=
  (ts.find? (fun t => t.1 = name)).map (fun t => t.2)

/-- Modelled from the spec: `write` on a non-existent table creates it,
inferring the value columns from the supplied tabular shape; the key
column and the timestamps come from the calling context.  (The
existing-table schema-compatibility path is not part of the claims
settled here.) -/
def writeRefTable (ts : RefTableStore) (name desc now : String)
    (keyCol : ColumnDef) (headers : List String)
    (rows : List (List PValue)) : RefTableStore :=
  match lookupTable ts name with
  | some _ => ts
  | none =>
    (name,
      { Key := keyCol, Values := inferValueColumns headers rows
        Created := now, Modified := now, Description := desc
        Labels := [], Name := name }) :: ts

/-- A signal kind at the call boundary: the enum member or a string
alias. -/
inductive SignalTypeSpec where
  | enum (k : SignalKind)
  | str (s : String)
deriving DecidableEq, Repr

/-- Modelled from the spec and the example notebooks: the case-insensitive
string aliases for signal kinds accepted by the data operations. -/
def parseSignalKindName (s : String) : Option SignalKind :=
  let t := lowerString s
  if t = "static" then some .Static
  else if t = "string" then some .String
  else if t = "time" then some .TimeDependent
  else if t = "timedependent" then some .TimeDependent
  else if t = "depth" then some .DepthDependent
  else if t = "depthdependent" then some .DepthDependent
  else if t = "timestring" then some .StringTimeDependent
  else if t = "stringtimedependent" then some .StringTimeDependent
  else none

/-- Normalization of a boundary signal kind to the canonical enum. -/
def normalizeSignalKind : SignalTypeSpec → Option SignalKind
  | .enum k => some k
  | .str s => parseSignalKindName s

/-- Modelled from the spec: get_data_range — the stored extent for the
normalized signal kind (`none` when the kind is unrecognized). -/
def getDataRange (t : SignalTypeSpec)
    (extents : SignalKind → Option Extent) : Option (Option Extent) :=
  (normalizeSignalKind t).map extents

/-- Modelled from the spec: load_data — resolve the query window for the
normalized kind, then decode the records over it. -/
def loadData (t : SignalTypeSpec) (descs : List SignalDescriptor)
    (records : List IndexedRecord) (a b : Option Int)
    (inc : IncrementSpec) (extent : Option Extent) :
    Option (Except ApiError Table) :=
  (normalizeSignalKind t).map (fun kind =>
    match RangeResolver.resolve kind a b inc extent with
    | .error e => .error e
    | .ok w => .ok (RecordCodec.decode descs records w))

/-- Modelled from the spec: save_data — apply the merge-planned write for
the normalized kind. -/
def saveData (t : SignalTypeSpec) (s : Store)
    (existingKeys : List RecordKey) (incoming : List IndexedRecord)
    (skipExisting : Bool) : Option Store :=
  (normalizeSignalKind t).map (fun _ =>
    writeData s existingKeys incoming skipExisting)


theorem storeApply_nil (s : Store) : storeApply s [] = s := rfl

theorem storeApply_cons (s : Store) (r : IndexedRecord) (rs : List IndexedRecord) :
    storeApply s (r :: rs) = storeApply (storePut s r) rs := rfl

/-- Lookup after applying a record list: the last record at that key wins,
and keys not written are untouched. -/
theorem storeApply_lookup (rs : List IndexedRecord) (s : Store) (k : RecordKey) :
    storeApply s rs k =
      match lastAtKey rs k with
      | some r => some r.value
      | none => s k := by
  induction rs generalizing s with
  | nil => rfl
  | cons r rs ih =>
    rw [storeApply_cons, ih]
    have hstep : lastAtKey (r :: rs) k
        = if r.key = k then (r :: rs.filter (fun x => decide (x.key = k))).getLast?
          else lastAtKey rs k := by
      unfold lastAtKey
      rw [List.filter_cons]
      by_cases hk : r.key = k
      · rw [if_pos (by simp [hk]), if_pos hk]
      · rw [if_neg (by simp [hk]), if_neg hk]
    rw [hstep]
    by_cases hk : r.key = k
    · rw [if_pos hk]
      rcases h3 : rs.filter (fun x => decide (x.key = k)) with _ | ⟨a, l⟩
      · have h4 : lastAtKey rs k = none := by unfold lastAtKey; rw [h3]; rfl
        rw [h4, h3]
        show storePut s r k = some r.value
        unfold storePut
        rw [if_pos hk.symm]
      · have h4 : lastAtKey rs k = (a :: l).getLast? := by unfold lastAtKey; rw [h3]
        rw [h4, h3, List.getLast?_cons_cons]
        rcases h5 : (a :: l).getLast? with _ | r2
        · rw [List.getLast?_eq_none_iff] at h5
          exact absurd h5 (List.cons_ne_nil a l)
        · rfl
    · rw [if_neg hk]
      rcases h3 : lastAtKey rs k with _ | r2
      · show storePut s r k = s k
        unfold storePut
        rw [if_neg (fun h => hk h.symm)]
      · rfl

/-- C1: MergeEngine.plan partitions the incoming records.  With
`skipExisting = true`, exactly the records whose key is in `existingKeys`
go to `toSkip` (and are not transmitted), every other record — including
one whose key is absent from the probed key set — goes to `toWrite`; and
for an existing key K stored at V, an incoming record at K with value
V2 ≠ V leaves V in place under `skipExisting = true` while
`skipExisting = false` replaces it with V2. -/
theorem C1_plan_partition_and_skip_exclusivity
    (E : List RecordKey) (R : List IndexedRecord) (K : RecordKey)
    (V V2 : PValue) (s : Store)
    (hstored : s K = some V) (hmem : K ∈ E) (hne : V2 ≠ V) :
    ((MergeEngine.plan E R true).toSkip = R.filter (fun r => decide (r.key ∈ E)))
    ∧ ((MergeEngine.plan E R true).toWrite = R.filter (fun r => decide (r.key ∉ E)))
    ∧ (∀ r ∈ R, r.key ∉ E → r ∈ (MergeEngine.plan E R true).toWrite)
    ∧ (∀ r ∈ R, r.key ∈ E → r ∉ (MergeEngine.plan E R true).toWrite)
    ∧ (writeData s E [⟨K, V2⟩] true K = some V)
    ∧ (writeData s E [⟨K, V2⟩] false K = some V2)
    ∧ (writeData s E [⟨K, V2⟩] true K ≠ some V2) := by
  refine ⟨rfl, rfl, ?_, ?_, ?_, ?_, ?_⟩
  · intro r hr hnot
    show r ∈ R.filter (fun r => decide (r.key ∉ E))
    exact List.mem_filter.mpr ⟨hr, by simpa using hnot⟩
  · intro r hr hin hw
    have := (List.mem_filter.mp hw).2
    simp at this
    exact this hin
  · show storeApply s (MergeEngine.plan E [⟨K, V2⟩] true).toWrite K = some V
    have hw : (MergeEngine.plan E [⟨K, V2⟩] true).toWrite = [] := by
      show List.filter _ _ = []
      rw [List.filter_cons]
      rw [if_neg (by simp [hmem])]
      rfl
    rw [hw, storeApply_nil, hstored]
  · show storeApply s (MergeEngine.plan E [⟨K, V2⟩] false).toWrite K = some V2
    show storePut s ⟨K, V2⟩ K = some V2
    unfold storePut
    rw [if_pos rfl]
  · intro h
    have hw : (MergeEngine.plan E [⟨K, V2⟩] true).toWrite = [] := by
      show List.filter _ _ = []
      rw [List.filter_cons]
      rw [if_neg (by simp [hmem])]
      rfl
    have h2 : s K = some V2 := by
      rw [← h]
      show s K = storeApply s (MergeEngine.plan E [⟨K, V2⟩] true).toWrite K
      rw [hw, storeApply_nil]
    rw [hstored] at h2
    exact hne (Option.some.inj h2).symm

/-- Witness for C1 at a concrete store, key set and record. -/
theorem C1_plan_partition_and_skip_exclusivity_witness :
    let K : RecordKey := ⟨"Well 01", "oil rate", "bbl", some 20220801⟩
    let E : List RecordKey := [K]
    let s : Store := fun k => if k = K then some (.num 125) else none
    (s K = some (.num 125) ∧ K ∈ E ∧ (PValue.num 225) ≠ (PValue.num 125))
    ∧ (writeData s E [⟨K, .num 225⟩] true K = some (.num 125)
       ∧ writeData s E [⟨K, .num 225⟩] false K = some (.num 225)) := by
  refine ⟨⟨rfl, by simp, by decide⟩, ?_⟩
  have h := C1_plan_partition_and_skip_exclusivity
    [⟨"Well 01", "oil rate", "bbl", some 20220801⟩] []
    ⟨"Well 01", "oil rate", "bbl", some 20220801⟩ (.num 125) (.num 225)
    (fun k => if k = ⟨"Well 01", "oil rate", "bbl", some 20220801⟩
              then some (.num 125) else none)
    (by simp) (by simp) (by decide)
  exact ⟨h.2.2.2.2.1, h.2.2.2.2.2.1⟩

/-- C4: resolve substitutes each omitted bound with the corresponding
bound of currentExtent; in particular with both bounds omitted, a Daily
increment and extent min 2022-08-01 / max 2022-08-03 (dates encoded as
yyyymmdd integers) it returns exactly that window. -/
theorem C4_resolve_substitutes_extent_bounds :
    (∀ (kind : SignalKind) (i : Increment) (ext : Extent),
      incrementValidFor kind i = true →
      RangeResolver.resolve kind none none (.enum i) (some ext)
        = .ok (some ⟨ext.min, ext.max, i⟩))
    ∧ (∀ (kind : SignalKind) (i : Increment) (ext : Extent) (a : Int),
      incrementValidFor kind i = true →
      RangeResolver.resolve kind (some a) none (.enum i) (some ext)
        = .ok (some ⟨a, ext.max, i⟩))
    ∧ (∀ (kind : SignalKind) (i : Increment) (ext : Extent) (b : Int),
      incrementValidFor kind i = true →
      RangeResolver.resolve kind none (some b) (.enum i) (some ext)
        = .ok (some ⟨ext.min, b, i⟩))
    ∧ (RangeResolver.resolve .TimeDependent none none
        (.enum (.time .Daily)) (some ⟨20220801, 20220803⟩)
        = .ok (some ⟨20220801, 20220803, .time .Daily⟩)) := by
  refine ⟨?_, ?_, ?_, rfl⟩
  · intro kind i ext h
    simp [RangeResolver.resolve, normalizeIncrement, h]
  · intro kind i ext a h
    simp [RangeResolver.resolve, normalizeIncrement, h]
  · intro kind i ext b h
    simp [RangeResolver.resolve, normalizeIncrement, h]

/-- Witness for C4: the valid-increment hypothesis discharged at
TimeDependent/Daily with a concrete extent. -/
theorem C4_resolve_substitutes_extent_bounds_witness :
    RangeResolver.resolve .TimeDependent none none
      (.enum (.time .Daily)) (some ⟨20220801, 20220803⟩)
      = .ok (some ⟨20220801, 20220803, .time .Daily⟩) :=
  C4_resolve_substitutes_extent_bounds.1 .TimeDependent (.time .Daily)
    ⟨20220801, 20220803⟩ rfl

/-- C2: overwrite-mode writes are idempotent — applying the same record
list twice with `skipExisting = false` leaves the stored state identical
to applying it once, whatever key sets the two probes returned. -/
theorem C2_overwrite_write_idempotent
    (s : Store) (E1 E2 : List RecordKey) (R : List IndexedRecord) :
    writeData (writeData s E1 R false) E2 R false = writeData s E1 R false := by
  funext k
  show storeApply (storeApply s R) R k = storeApply s R k
  rw [storeApply_lookup, storeApply_lookup]
  rcases h : lastAtKey R k with _ | r
  · rfl
  · rfl

/-- C6: resolve accepts an increment exactly when it is a member of the
kind's enumerated set or a recognized case-insensitive string synonym;
a synonym is normalized to the canonical enum before use, so the call
with the synonym returns the same window as the call with the enum; any
other increment fails with InvalidRangeSpec. -/
theorem C6_increment_acceptance_and_normalization :
    (∀ (kind : SignalKind) (i : Increment),
      incrementValidFor kind i = true →
      normalizeIncrement kind (.enum i) = .ok i)
    ∧ (∀ (kind : SignalKind) (s : String) (i : Increment),
      parseIncrementName s = some i → incrementValidFor kind i = true →
      normalizeIncrement kind (.str s) = .ok i)
    ∧ (∀ (kind : SignalKind) (i : Increment) (a b : Option Int)
        (ext : Option Extent),
      incrementValidFor kind i = false →
      RangeResolver.resolve kind a b (.enum i) ext = .error .InvalidRangeSpec)
    ∧ (∀ (kind : SignalKind) (s : String) (i : Increment) (a b : Option Int)
        (ext : Option Extent),
      parseIncrementName s = some i →
      RangeResolver.resolve kind a b (.str s) ext
        = RangeResolver.resolve kind a b (.enum i) ext)
    ∧ (∀ (kind : SignalKind) (s : String) (a b : Option Int)
        (ext : Option Extent),
      parseIncrementName s = none →
      RangeResolver.resolve kind a b (.str s) ext = .error .InvalidRangeSpec)
    ∧ (parseIncrementName "daily" = some (.time .Daily)
       ∧ parseIncrementName "Daily" = some (.time .Daily)
       ∧ parseIncrementName "DAILY" = some (.time .Daily)) := by
  refine ⟨?_, ?_, ?_, ?_, ?_, by decide, by decide, by decide⟩
  · intro kind i h
    simp [normalizeIncrement, h]
  · intro kind s i hp h
    simp [normalizeIncrement, hp, h]
  · intro kind i a b ext h
    simp [RangeResolver.resolve, normalizeIncrement, h]
  · intro kind s i a b ext hp
    simp [RangeResolver.resolve, normalizeIncrement, hp]
  · intro kind s a b ext hp
    simp [RangeResolver.resolve, normalizeIncrement, hp]

/-- Witness for C6: the synonym "daily" resolves identically to the
Daily enum, and an unrecognized name fails with InvalidRangeSpec. -/
theorem C6_increment_acceptance_and_normalization_witness :
    (RangeResolver.resolve .TimeDependent (some 1) (some 3) (.str "daily") none
      = RangeResolver.resolve .TimeDependent (some 1) (some 3)
          (.enum (.time .Daily)) none)
    ∧ (RangeResolver.resolve .TimeDependent (some 1) (some 3)
        (.str "fortnightly") none = .error .InvalidRangeSpec)
    ∧ (RangeResolver.resolve .DepthDependent (some 1) (some 3)
        (.enum (.time .Daily)) none = .error .InvalidRangeSpec) :=
  ⟨C6_increment_acceptance_and_normalization.2.2.2.1 .TimeDependent "daily"
      (.time .Daily) (some 1) (some 3) none (by decide),
   C6_increment_acceptance_and_normalization.2.2.2.2.1 .TimeDependent
      "fortnightly" (some 1) (some 3) none (by decide),
   C6_increment_acceptance_and_normalization.2.2.1 .DepthDependent
      (.time .Daily) (some 1) (some 3) none (by decide)⟩

namespace RecordCodec

theorem mem_encode {descs : List SignalDescriptor} {rows : List TableRow}
    {rec : IndexedRecord} :
    rec ∈ encode descs rows ↔ ∃ r ∈ rows, rec ∈ encodeRow descs r := by
  induction rows with
  | nil => simp [encode]
  | cons r rs ih => simp [encode, List.mem_append, ih]

theorem mem_encodeRow_fields {descs : List SignalDescriptor} {r : TableRow}
    {rec : IndexedRecord} (h : rec ∈ encodeRow descs r) :
    rec.key.entity = r.entity ∧ rec.key.index = some r.index := by
  rcases List.mem_map.mp h with ⟨p, hp, rfl⟩
  exact ⟨rfl, rfl⟩

theorem encodeRow_map_keyOf (descs : List SignalDescriptor) (r : TableRow) :
    (encodeRow descs r).map keyOf
      = List.replicate (min descs.length r.cells.length)
          (r.entity, r.index) := by
  apply List.eq_replicate_iff.mpr
  constructor
  · simp [encodeRow, List.length_zip]
  · intro b hb
    rcases List.mem_map.mp hb with ⟨rec, hrec, rfl⟩
    rcases List.mem_map.mp hrec with ⟨p, hp, rfl⟩
    rfl

theorem recordInWindow_none (rec : IndexedRecord) :
    recordInWindow none rec = false := by
  unfold recordInWindow
  cases rec.key.index <;> rfl

end RecordCodec

theorem dedupFirst_cons {α : Type} [DecidableEq α] (a : α) (l : List α) :
    dedupFirst (a :: l) = a :: dedupFirst (l.filter (fun b => decide (b ≠ a))) := by
  rw [dedupFirst]

theorem filter_ne_replicate {α : Type} [DecidableEq α] (n : ℕ) (a : α) :
    (List.replicate n a).filter (fun b => decide (b ≠ a)) = [] := by
  apply List.filter_eq_nil_iff.mpr
  intro b hb
  simp [List.eq_of_mem_replicate hb]

theorem dedupFirst_replicate_append {α : Type} [DecidableEq α] (n : ℕ)
    (hn : 0 < n) (a : α) (l : List α) :
    dedupFirst (List.replicate n a ++ l)
      = a :: dedupFirst (l.filter (fun b => decide (b ≠ a))) := by
  cases n with
  | zero => exact absurd hn (by simp)
  | succ m =>
    rw [List.replicate_succ, List.cons_append, dedupFirst_cons,
        List.filter_append, filter_ne_replicate, List.nil_append]


theorem dedupFirst_nil {α : Type} [DecidableEq α] :
    dedupFirst ([] : List α) = [] := by
  rw [dedupFirst]

namespace RecordCodec

theorem keys_of_encode (descs : List SignalDescriptor) (rows : List TableRow)
    (hkeys : (rows.map (fun r => (r.entity, r.index))).Nodup)
    (hpos : ∀ r ∈ rows, 0 < min descs.length r.cells.length) :
    dedupFirst ((encode descs rows).map keyOf)
      = rows.map (fun r => (r.entity, r.index)) := by
  induction rows with
  | nil => exact dedupFirst_nil
  | cons r rs ih =>
    rw [List.map_cons] at hkeys
    show dedupFirst ((encodeRow descs r ++ encode descs rs).map keyOf) = _
    rw [List.map_append, encodeRow_map_keyOf,
        dedupFirst_replicate_append _ (hpos r (by simp)) _ _]
    have hfilter : ((encode descs rs).map keyOf).filter
        (fun b => decide (b ≠ (r.entity, r.index)))
          = (encode descs rs).map keyOf := by
      apply List.filter_eq_self.mpr
      intro b hb
      rcases List.mem_map.mp hb with ⟨rec, hrec, rfl⟩
      rcases mem_encode.mp hrec with ⟨r2, hr2, hrow⟩
      have hf := mem_encodeRow_fields hrow
      have hk : keyOf rec = (r2.entity, r2.index) := by
        unfold keyOf
        rw [hf.1, hf.2]
        rfl
      rw [hk]
      apply decide_eq_true
      intro heq
      have hm : (r2.entity, r2.index)
          ∈ List.map (fun x => (x.entity, x.index)) rs :=
        List.mem_map_of_mem (fun x => (x.entity, x.index)) hr2
      rw [heq] at hm
      exact (List.nodup_cons.mp hkeys).1 hm
    rw [hfilter, ih (List.nodup_cons.mp hkeys).2
        (fun r2 h2 => hpos r2 (List.mem_cons_of_mem r h2))]
    rfl

theorem encode_filter_window (descs : List SignalDescriptor)
    (rows : List TableRow) (w : Window)
    (hwin : ∀ r ∈ rows, w.start ≤ r.index ∧ r.index ≤ w.stop) :
    (encode descs rows).filter (recordInWindow (some w))
      = encode descs rows := by
  apply List.filter_eq_self.mpr
  intro rec hrec
  rcases mem_encode.mp hrec with ⟨r, hr, hrow⟩
  have hf := mem_encodeRow_fields hrow
  unfold recordInWindow
  rw [hf.2]
  unfold windowContains
  simp [(hwin r hr).1, (hwin r hr).2]

theorem findValue_mkRecords (e : String) (i : Int)
    (ps : List (SignalDescriptor × PValue))
    (hN : (ps.map (fun p => (p.1.name, p.1.unit))).Nodup) :
    ps.map (fun p =>
        findValue (ps.map (mkRecord e i)) e p.1.name p.1.unit i)
      = ps.map (fun p => some p.2) := by
  induction ps with
  | nil => rfl
  | cons p ps ih =>
    rw [List.map_cons] at hN
    have hN2 := List.nodup_cons.mp hN
    rw [List.map_cons, List.map_cons, List.map_cons]
    congr 1
    · unfold findValue
      rw [List.find?_cons_of_pos _ (by simp [mkRecord])]
      rfl
    · have hstep : ∀ q ∈ ps,
          findValue (mkRecord e i p :: ps.map (mkRecord e i))
              e q.1.name q.1.unit i
            = findValue (ps.map (mkRecord e i)) e q.1.name q.1.unit i := by
        intro q hq
        unfold findValue
        congr 1
        apply List.find?_cons_of_neg
        intro hcontra
        have hkey := of_decide_eq_true hcontra
        have h1 : p.1.name = q.1.name := congrArg RecordKey.signal hkey
        have h2 : p.1.unit = q.1.unit := congrArg RecordKey.unit hkey
        have hm : (q.1.name, q.1.unit)
            ∈ List.map (fun x => (x.1.name, x.1.unit)) ps :=
          List.mem_map_of_mem (fun x => (x.1.name, x.1.unit)) hq
        rw [← h1, ← h2] at hm
        exact hN2.1 hm
      calc ps.map (fun q =>
              findValue (mkRecord e i p :: ps.map (mkRecord e i))
                e q.1.name q.1.unit i)
          = ps.map (fun q =>
              findValue (ps.map (mkRecord e i)) e q.1.name q.1.unit i) :=
            List.map_congr_left hstep
        _ = ps.map (fun q => some q.2) := ih hN2.2

theorem findValue_encode_row (descs : List SignalDescriptor)
    (rows : List TableRow) (r : TableRow) (hr : r ∈ rows)
    (hkeys : (rows.map (fun x => (x.entity, x.index))).Nodup)
    (n u : String) :
    findValue (encode descs rows) r.entity n u r.index
      = findValue (encodeRow descs r) r.entity n u r.index := by
  induction rows with
  | nil => cases hr
  | cons r0 rs ih =>
    rw [List.map_cons] at hkeys
    rcases List.mem_cons.mp hr with heq | hr2
    · subst heq
      show findValue (encodeRow descs r ++ encode descs rs) _ n u _ = _
      unfold findValue
      rw [List.find?_append]
      have htail : (encode descs rs).find?
          (fun rec => decide (rec.key = ⟨r.entity, n, u, some r.index⟩))
            = none := by
        apply List.find?_eq_none.mpr
        intro rec hrec
        rcases mem_encode.mp hrec with ⟨r2, hr2, hrow⟩
        have hf := mem_encodeRow_fields hrow
        simp only [decide_eq_true_eq]
        intro heq
        have h1 : r2.entity = r.entity := by rw [← hf.1, heq]
        have h2 : r2.index = r.index := by
          have h3 : some r2.index = some r.index := by rw [← hf.2, heq]
          exact Option.some.inj h3
        have hm : (r2.entity, r2.index)
            ∈ List.map (fun x => (x.entity, x.index)) rs :=
          List.mem_map_of_mem (fun x => (x.entity, x.index)) hr2
        rw [h1, h2] at hm
        exact (List.nodup_cons.mp hkeys).1 hm
      rw [htail, Option.or_none]
    · show findValue (encodeRow descs r0 ++ encode descs rs) _ n u _ = _
      unfold findValue
      rw [List.find?_append]
      have hhead : (encodeRow descs r0).find?
          (fun rec => decide (rec.key = ⟨r.entity, n, u, some r.index⟩))
            = none := by
        apply List.find?_eq_none.mpr
        intro rec hrec
        have hf := mem_encodeRow_fields hrec
        simp only [decide_eq_true_eq]
        intro heq
        have h1 : r0.entity = r.entity := by rw [← hf.1, heq]
        have h2 : r0.index = r.index := by
          have h3 : some r0.index = some r.index := by rw [← hf.2, heq]
          exact Option.some.inj h3
        have hm : (r.entity, r.index)
            ∈ List.map (fun x => (x.entity, x.index)) rs :=
          List.mem_map_of_mem (fun x => (x.entity, x.index)) hr2
        rw [← h1, ← h2] at hm
        exact (List.nodup_cons.mp hkeys).1 hm
      rw [hhead, Option.none_or]
      exact ih hr2 (List.nodup_cons.mp hkeys).2

end RecordCodec

/-- C3: the encode/decode round-trip preserves values — decoding the
records produced by encode over any window covering the written indices
yields exactly the original rows (cells wrapped as present values), and
the only difference is the header text, which carries the appended unit
annotation. -/
theorem C3_encode_decode_round_trip
    (descs : List SignalDescriptor) (rows : List TableRow) (w : Window)
    (hne : descs ≠ [])
    (hkeys : (rows.map (fun r => (r.entity, r.index))).Nodup)
    (hcols : (descs.map (fun d => (d.name, d.unit))).Nodup)
    (hlen : ∀ r ∈ rows, r.cells.length = descs.length)
    (hwin : ∀ r ∈ rows, w.start ≤ r.index ∧ r.index ≤ w.stop) :
    RecordCodec.decode descs (RecordCodec.encode descs rows) (some w)
      = { headers := descs.map (fun d =>
            RecordCodec.withUnitSuffix d.name d.unit)
          rows := rows.map (fun r =>
            { entity := r.entity, index := r.index
              cells := r.cells.map some }) } := by
  have hpos : ∀ r ∈ rows, 0 < min descs.length r.cells.length := by
    intro r hr
    rw [hlen r hr]
    simpa using List.length_pos.mpr hne
  unfold RecordCodec.decode
  rw [RecordCodec.encode_filter_window descs rows w hwin,
      RecordCodec.keys_of_encode descs rows hkeys hpos]
  congr 1
  rw [List.map_map]
  apply List.map_congr_left
  intro r hr
  show (⟨r.entity, r.index, descs.map (fun d =>
      RecordCodec.findValue (RecordCodec.encode descs rows)
        r.entity d.name d.unit r.index)⟩ : DecodedRow)
    = ⟨r.entity, r.index, r.cells.map some⟩
  have hstep : ∀ d ∈ descs,
      RecordCodec.findValue (RecordCodec.encode descs rows)
          r.entity d.name d.unit r.index
        = RecordCodec.findValue (RecordCodec.encodeRow descs r)
            r.entity d.name d.unit r.index :=
    fun d _ => RecordCodec.findValue_encode_row descs rows r hr hkeys d.name d.unit
  have hle1 : descs.length ≤ r.cells.length := le_of_eq (hlen r hr).symm
  have hle2 : r.cells.length ≤ descs.length := le_of_eq (hlen r hr)
  have hfst : (descs.zip r.cells).map Prod.fst = descs :=
    List.map_fst_zip _ _ hle1
  have hsnd : (descs.zip r.cells).map Prod.snd = r.cells :=
    List.map_snd_zip _ _ hle2
  have hNzip : ((descs.zip r.cells).map
      (fun p => (p.1.name, p.1.unit))).Nodup := by
    have h1 : (descs.zip r.cells).map (fun p => (p.1.name, p.1.unit))
        = ((descs.zip r.cells).map Prod.fst).map (fun d => (d.name, d.unit)) := by
      rw [List.map_map]
      exact List.map_congr_left (fun p _ => rfl)
    rw [h1, hfst]
    exact hcols
  have hrow := RecordCodec.findValue_mkRecords r.entity r.index
    (descs.zip r.cells) hNzip
  have hcells : descs.map (fun d =>
      RecordCodec.findValue (RecordCodec.encodeRow descs r)
        r.entity d.name d.unit r.index) = r.cells.map some := by
    calc descs.map (fun d =>
            RecordCodec.findValue (RecordCodec.encodeRow descs r)
              r.entity d.name d.unit r.index)
        = ((descs.zip r.cells).map Prod.fst).map (fun d =>
            RecordCodec.findValue (RecordCodec.encodeRow descs r)
              r.entity d.name d.unit r.index) := by rw [hfst]
      _ = (descs.zip r.cells).map (fun p =>
            RecordCodec.findValue
              ((descs.zip r.cells).map
                (RecordCodec.mkRecord r.entity r.index))
              r.entity p.1.name p.1.unit r.index) := by
            rw [List.map_map]
            exact List.map_congr_left (fun p _ => rfl)
      _ = (descs.zip r.cells).map (fun p => some p.2) := hrow
      _ = ((descs.zip r.cells).map Prod.snd).map some := by
            rw [List.map_map]
            exact List.map_congr_left (fun p _ => rfl)
      _ = r.cells.map some := by rw [hsnd]
  rw [List.map_congr_left hstep, hcells]

/-- Witness for C3 at a concrete two-row, two-column table. -/
theorem C3_encode_decode_round_trip_witness :
    RecordCodec.decode
        [⟨"A", .TimeDependent, "bbl", "Volume"⟩,
         ⟨"B", .TimeDependent, "m3", "Volume"⟩]
        (RecordCodec.encode
          [⟨"A", .TimeDependent, "bbl", "Volume"⟩,
           ⟨"B", .TimeDependent, "m3", "Volume"⟩]
          [⟨"Well 01", 1, [.num 10, .num 20]⟩,
           ⟨"Well 02", 2, [.str "x", .num 30]⟩])
        (some ⟨0, 5, .time .Daily⟩)
      = { headers := ["A [bbl]", "B [m3]"]
          rows := [⟨"Well 01", 1, [some (.num 10), some (.num 20)]⟩,
                   ⟨"Well 02", 2, [some (.str "x"), some (.num 30)]⟩] } :=
  C3_encode_decode_round_trip
    [⟨"A", .TimeDependent, "bbl", "Volume"⟩,
     ⟨"B", .TimeDependent, "m3", "Volume"⟩]
    [⟨"Well 01", 1, [.num 10, .num 20]⟩,
     ⟨"Well 02", 2, [.str "x", .num 30]⟩]
    ⟨0, 5, .time .Daily⟩
    (by decide) (by decide) (by decide) (by decide) (by decide)

/-- C5: a signal with no stored data and no explicit bounds resolves to
an empty window (not an error), and decoding over the empty window
yields zero rows (not an error). -/
theorem C5_empty_extent_empty_window_zero_rows :
    (∀ (kind : SignalKind) (i : Increment),
      incrementValidFor kind i = true →
      RangeResolver.resolve kind none none (.enum i) none = .ok none)
    ∧ (∀ (descs : List SignalDescriptor) (records : List IndexedRecord),
      (RecordCodec.decode descs records none).rows = []) := by
  constructor
  · intro kind i h
    simp [RangeResolver.resolve, normalizeIncrement, h]
  · intro descs records
    have hf : records.filter (RecordCodec.recordInWindow none) = [] := by
      apply List.filter_eq_nil_iff.mpr
      intro rec hrec
      simp [RecordCodec.recordInWindow_none]
    show (dedupFirst ((records.filter
        (RecordCodec.recordInWindow none)).map RecordCodec.keyOf)).map _ = []
    rw [hf]
    show (dedupFirst ([] : List (String × Int))).map _ = []
    rw [dedupFirst_nil]
    rfl

/-- Witness for C5 at the Daily increment and empty inputs. -/
theorem C5_empty_extent_empty_window_zero_rows_witness :
    RangeResolver.resolve .TimeDependent none none
        (.enum (.time .Daily)) none = .ok none
    ∧ (RecordCodec.decode [] [] none).rows = [] :=
  ⟨C5_empty_extent_empty_window_zero_rows.1 .TimeDependent (.time .Daily) rfl,
   C5_empty_extent_empty_window_zero_rows.2 [] []⟩

namespace WorkflowRunner

theorem awaitFrom_zero (polls : Nat → WfStatus) (i : Nat) :
    awaitFrom polls i 0 = .error .Timeout := rfl

theorem awaitFrom_terminal (polls : Nat → WfStatus) (i fuel : Nat)
    (h : (polls i).isTerminal = true) :
    awaitFrom polls i (fuel + 1) = .ok (i, polls i) := by
  unfold awaitFrom
  rw [if_pos h]

theorem awaitFrom_step (polls : Nat → WfStatus) (i fuel : Nat)
    (h : (polls i).isTerminal = false) :
    awaitFrom polls i (fuel + 1) = awaitFrom polls (i + 1) fuel := by
  conv_lhs => rw [awaitFrom]
  rw [if_neg (by simp [h])]

theorem awaitFrom_first_terminal (polls : Nat → WfStatus) :
    ∀ (fuel i n : Nat), i ≤ n → n < i + fuel →
    (∀ j, i ≤ j → j < n → (polls j).isTerminal = false) →
    (polls n).isTerminal = true →
    awaitFrom polls i fuel = .ok (n, polls n) := by
  intro fuel
  induction fuel with
  | zero =>
    intro i n hin hlt
    omega
  | succ m ih =>
    intro i n hin hlt hnon hterm
    rcases Nat.eq_or_lt_of_le hin with heq | hlt2
    · subst heq
      exact awaitFrom_terminal polls i m hterm
    · rw [awaitFrom_step polls i m (hnon i (Nat.le_refl i) hlt2)]
      exact ih (i + 1) n hlt2 (by omega)
        (fun j hj1 hj2 => hnon j (by omega) hj2) hterm

end WorkflowRunner

/-- C7: starting a workflow yields Waiting; Waiting and Executing are the
only non-terminal statuses, so polls returning them continue the loop;
the await loop returns at the first poll showing one of the four terminal
statuses — in particular Failed — with exactly that state, and performs no
further poll (the result index is the first terminal poll's number). -/
theorem C7_workflow_polling_terminates_on_terminal :
    (∀ name, (WorkflowRunner.start name).status = .Waiting)
    ∧ (WfStatus.isTerminal .Waiting = false
       ∧ WfStatus.isTerminal .Executing = false
       ∧ WfStatus.isTerminal .Executed = true
       ∧ WfStatus.isTerminal .Completed = true
       ∧ WfStatus.isTerminal .Failed = true
       ∧ WfStatus.isTerminal .Cancelled = true)
    ∧ (∀ (polls : Nat → WfStatus) (i fuel : Nat),
        (polls i).isTerminal = false →
        WorkflowRunner.awaitFrom polls i (fuel + 1)
          = WorkflowRunner.awaitFrom polls (i + 1) fuel)
    ∧ (∀ (polls : Nat → WfStatus) (i fuel : Nat),
        (polls i).isTerminal = true →
        WorkflowRunner.awaitFrom polls i (fuel + 1) = .ok (i, polls i))
    ∧ (∀ (polls : Nat → WfStatus) (n fuel : Nat),
        n < fuel →
        (∀ j, j < n → (polls j).isTerminal = false) →
        (polls n).isTerminal = true →
        WorkflowRunner.awaitCompletion polls fuel = .ok (n, polls n)) := by
  refine ⟨fun _ => rfl, ⟨rfl, rfl, rfl, rfl, rfl, rfl⟩, ?_, ?_, ?_⟩
  · exact WorkflowRunner.awaitFrom_step
  · exact WorkflowRunner.awaitFrom_terminal
  · intro polls n fuel hlt hnon hterm
    exact WorkflowRunner.awaitFrom_first_terminal polls fuel 0 n
      (Nat.zero_le n) (by omega) (fun j _ hj => hnon j hj) hterm

/-- Witness for C7: a run that polls Waiting, then Executing, then Failed
returns Failed at poll number 2 without further polling. -/
theorem C7_workflow_polling_terminates_on_terminal_witness :
    WorkflowRunner.awaitCompletion
        (fun n => if n = 0 then .Waiting
                  else if n = 1 then .Executing else .Failed) 10
      = .ok (2, .Failed) := by
  have h := C7_workflow_polling_terminates_on_terminal.2.2.2.2
    (fun n => if n = 0 then .Waiting
              else if n = 1 then .Executing else .Failed) 2 10
    (by omega) (by decide) (by decide)
  simpa using h

/-- C8: deleteByPrefix (delete_folder) removes exactly the entries whose
path equals the prefix or starts with prefix plus the separator; after
uploading a/b.txt and a/c/d.txt, deleting folder a removes both and the
listing contains neither; a prefix matching no stored entry is a no-op,
not an error. -/
theorem C8_delete_folder_semantics :
    (∀ (store : List String) (pre q : String),
      q ∈ BlobPathStore.deleteFolder store pre
        ↔ q ∈ store ∧ BlobPathStore.underPre pre q = false)
    ∧ (∀ (store : List String) (pre : String),
      (∀ q ∈ store, BlobPathStore.underPre pre q = false) →
      BlobPathStore.deleteFolder store pre = store)
    ∧ (BlobPathStore.getFileNames
        (BlobPathStore.deleteFolder
          (BlobPathStore.upload (BlobPathStore.upload [] "a/b.txt")
            "a/c/d.txt") "a") = []) := by
  refine ⟨?_, ?_, by decide⟩
  · intro store pre q
    unfold BlobPathStore.deleteFolder
    rw [List.mem_filter]
    simp
  · intro store pre h
    unfold BlobPathStore.deleteFolder
    apply List.filter_eq_self.mpr
    intro q hq
    rw [h q hq]
    rfl

/-- Witness for C8: deleting a folder that matches nothing leaves the
store unchanged. -/
theorem C8_delete_folder_semantics_witness :
    BlobPathStore.deleteFolder ["x.txt", "b/c.txt"] "a"
      = ["x.txt", "b/c.txt"] :=
  C8_delete_folder_semantics.2.1 ["x.txt", "b/c.txt"] "a" (by decide)

theorem inferValueColumnsFrom_names (rows : List (List PValue)) :
    ∀ (j : Nat) (hs : List String),
    (inferValueColumnsFrom rows j hs).map (fun c => c.Name) = hs := by
  intro j hs
  induction hs generalizing j with
  | nil => rfl
  | cons h hs ih => simp [inferValueColumnsFrom, ih]

theorem inferValueColumnsFrom_getQ (rows : List (List PValue)) :
    ∀ (hs : List String) (j0 j : Nat),
    (inferValueColumnsFrom rows j0 hs).get? j
      = (hs.get? j).map (fun h =>
          ⟨inferColumnType (columnValues rows (j0 + j)), " ", h⟩) := by
  intro hs
  induction hs with
  | nil =>
    intro j0 j
    cases j <;> rfl
  | cons h hs ih =>
    intro j0 j
    cases j with
    | zero => rfl
    | succ m =>
      show (inferValueColumnsFrom rows (j0 + 1) hs).get? m = _
      rw [ih (j0 + 1) m]
      have harith : j0 + 1 + m = j0 + (m + 1) := by omega
      rw [harith]
      rfl

/-- C9: a RefTable write to a non-existent table name creates the table,
inferring its schema from the supplied tabular shape — value columns in
first-seen column order, each typed Numeric when all its values are
numeric and String otherwise — and the stored metadata has the wire shape
{Key, Values, Created, Modified, Description, Labels, Name}. -/
theorem C9_reftable_create_infers_schema
    (ts : RefTableStore) (name desc now : String) (keyCol : ColumnDef)
    (headers : List String) (rows : List (List PValue))
    (hnew : lookupTable ts name = none) :
    (lookupTable (writeRefTable ts name desc now keyCol headers rows) name
      = some { Key := keyCol, Values := inferValueColumns headers rows
               Created := now, Modified := now, Description := desc
               Labels := [], Name := name })
    ∧ ((inferValueColumns headers rows).map (fun c => c.Name) = headers)
    ∧ (∀ j : Nat, (inferValueColumns headers rows).get? j
        = (headers.get? j).map (fun h =>
            ⟨inferColumnType (columnValues rows j), " ", h⟩)) := by
  refine ⟨?_, inferValueColumnsFrom_names rows 0 headers, ?_⟩
  · unfold writeRefTable
    rw [hnew]
    unfold lookupTable
    rw [List.find?_cons_of_pos _ (by simp)]
    rfl
  · intro j
    have h := inferValueColumnsFrom_getQ rows headers 0 j
    simpa using h

/-- Witness for C9: creating a fresh two-column table infers Numeric for
the all-numeric column and String for the mixed one. -/
theorem C9_reftable_create_infers_schema_witness :
    lookupTable
        (writeRefTable [] "Py Test New Table" "Testing API from Python"
          "t0" ⟨"String", " ", "Key"⟩ ["A", "B"]
          [[.num 1, .str "x"], [.num 2, .num 3]])
        "Py Test New Table"
      = some { Key := ⟨"String", " ", "Key"⟩
               Values := [⟨"Numeric", " ", "A"⟩, ⟨"String", " ", "B"⟩]
               Created := "t0", Modified := "t0"
               Description := "Testing API from Python", Labels := []
               Name := "Py Test New Table" } := by
  have h := (C9_reftable_create_infers_schema [] "Py Test New Table"
    "Testing API from Python" "t0" ⟨"String", " ", "Key"⟩ ["A", "B"]
    [[.num 1, .str "x"], [.num 2, .num 3]] rfl).1
  rw [h]
  rfl

/-- C10: every data operation taking a signal kind accepts it as the
enum member or as a case-insensitive string alias — "TimeDependent" and
"time" both denote TimeDependent, "timestring" denotes
StringTimeDependent, "depth" denotes DepthDependent — and the call with
the alias returns the same result as the call with the enum in
get_data_range, load_data and save_data. -/
theorem C10_signal_kind_string_aliases :
    (parseSignalKindName "TimeDependent" = some .TimeDependent
     ∧ parseSignalKindName "time" = some .TimeDependent
     ∧ parseSignalKindName "timestring" = some .StringTimeDependent
     ∧ parseSignalKindName "depth" = some .DepthDependent)
    ∧ (∀ (s : String) (k : SignalKind), parseSignalKindName s = some k →
        (∀ extents, getDataRange (.str s) extents
          = getDataRange (.enum k) extents)
        ∧ (∀ descs records a b inc extent,
            loadData (.str s) descs records a b inc extent
              = loadData (.enum k) descs records a b inc extent)
        ∧ (∀ st E incoming skip,
            saveData (.str s) st E incoming skip
              = saveData (.enum k) st E incoming skip)) := by
  constructor
  · exact ⟨by decide, by decide, by decide, by decide⟩
  · intro s k h
    refine ⟨fun extents => ?_,
            fun descs records a b inc extent => ?_,
            fun st E incoming skip => ?_⟩ <;>
      simp [getDataRange, loadData, saveData, normalizeSignalKind, h]

/-- Witness for C10: the alias "time" gives the same data range as the
TimeDependent enum. -/
theorem C10_signal_kind_string_aliases_witness :
    getDataRange (.str "time") (fun _ => some ⟨20220801, 20220803⟩)
      = getDataRange (.enum .TimeDependent)
          (fun _ => some ⟨20220801, 20220803⟩) :=
  (C10_signal_kind_string_aliases.2 "time" .TimeDependent (by decide)).1
    (fun _ => some ⟨20220801, 20220803⟩)
